import Mathlib

/-!
Verification of the personal finance tracker (`src/main.py`).

Shallow embedding conventions:
* Python strings are `List Char` (`Str` below); CSV rows are `List Str`
  (the `csv` module's quoting layer is abstracted away: a row is the list
  of its fields).
* Python `float` values are modelled as exact rationals `ℚ`.  `float(s)`
  is modelled by `pyFloat`, which accepts the finite decimal fragment of
  Python's float grammar (optional sign, digits with at most one dot,
  surrounding whitespace).  Exponent notation, underscores between digits
  and the special values inf and nan are outside the model, as are
  non-ASCII digit characters.
* `f"\x7bx:.2f\x7d"` formatting is modelled by `formatFixed2`: round the
  value to two decimal places with round-half-to-even and print it with
  exactly two digits after the dot.
-/

abbrev Str := List Char

/-- ASCII digit test, `'0' ≤ c ≤ '9'`. -/
def isDigitChar (c : Char) : Bool := 48 ≤ c.toNat && c.toNat ≤ 57

/-- Numeric value of an ASCII digit character. -/
def digVal (c : Char) : Nat := c.toNat - 48

/-- Value of a digit string, most significant digit first. -/
def valDigits (l : Str) : Nat := l.foldl (fun n c => 10 * n + digVal c) 0

/-- Whitespace test used by `strip` (Python strips Unicode whitespace;
the model covers the ASCII whitespace characters). -/
def isSpaceChar (c : Char) : Bool := c.isWhitespace

/-- Python `str.strip()`. -/
def pyStrip (l : Str) : Str :=
  ((l.dropWhile isSpaceChar).reverse.dropWhile isSpaceChar).reverse

/-- Unsigned decimal literal: digits with at most one dot and at least one
digit, as in `"12"`, `"12.5"`, `"12."`, `".5"`.  Returns its exact value. -/
def notDot (c : Char) : Bool := decide (c ≠ '.')

def parseUnsignedDec (l : Str) : Option ℚ :=
  let intPart := l.takeWhile notDot
  let rest := l.dropWhile notDot
  match rest with
  | [] =>
    if intPart.isEmpty then none
    else if intPart.all isDigitChar then some ((valDigits intPart : ℚ))
    else none
  | _ :: fracPart =>
    if intPart.isEmpty && fracPart.isEmpty then none
    else if intPart.all isDigitChar && fracPart.all isDigitChar then
      some ((valDigits intPart : ℚ) + (valDigits fracPart : ℚ) / (10 : ℚ) ^ fracPart.length)
    else none

/-- Model of Python `float(s)` on its finite decimal fragment:
strip whitespace, optional sign, unsigned decimal literal. -/
def pyFloat (s : Str) : Option ℚ :=
  match pyStrip s with
  | [] => none
  | c :: rest =>
    if c = '+' then parseUnsignedDec rest
    else if c = '-' then (parseUnsignedDec rest).map (fun x => -x)
    else parseUnsignedDec (c :: rest)

/-- Round to the nearest integer, ties to the even integer (the rounding
used by Python's fixed-point float formatting). -/
def roundHalfEven (x : ℚ) : ℤ :=
  let f : ℚ := x - (⌊x⌋ : ℚ)
  if f < 1 / 2 then ⌊x⌋
  else if 1 / 2 < f then ⌊x⌋ + 1
  else if 2 ∣ ⌊x⌋ then ⌊x⌋ else ⌊x⌋ + 1

/-- Decimal digits of a natural number, most significant first
(`"0"` for zero). -/
def natDigits (n : Nat) : Str :=
  if n = 0 then ['0'] else (Nat.digits 10 n).reverse.map Nat.digitChar

/-- Exactly two decimal digits of `k < 100`. -/
def twoDigits (k : Nat) : Str := [Nat.digitChar (k / 10), Nat.digitChar (k % 10)]

/-- Model of `f"\x7bx:.2f\x7d"`: sign of the value, then the rounded
magnitude with exactly two digits after the dot. -/
def formatFixed2 (x : ℚ) : Str :=
  let n : ℤ := roundHalfEven (100 * x)
  (if x < 0 then ['-'] else []) ++
    natDigits (n.natAbs / 100) ++ '.' :: twoDigits (n.natAbs % 100)

/-- The value `x` rounded to two decimal places; this is the value
`pyFloat` reads back from `formatFixed2 x`. -/
def round2 (x : ℚ) : ℚ := (roundHalfEven (100 * x) : ℚ) / 100

/-- The Expense record (`@dataclass Expense` in `src/main.py`). -/
structure Expense where
  amount : ℚ
  category : Str
  date : Str
  description : Str := []
  deriving DecidableEq, Repr

/-- `Expense.to_row`: `[date, category, amount formatted to 2 decimals,
description]`. -/
def Expense.to_row (e : Expense) : List Str :=
  [e.date, e.category, formatFixed2 e.amount, e.description]

/-- `Expense.from_row`: reads `[date, category, amount, description?]`;
`none` models the exceptions raised on a short row (IndexError) or a
non-numeric amount (ValueError from `float`). -/
def Expense.from_row (row : List Str) : Option Expense :=
  match row with
  | date :: category :: amountStr :: rest =>
    (pyFloat amountStr).map fun a =>
      { amount := a, category := category, date := date, description := rest.headD [] }
  | _ => none

/-- `e` with its amount rounded to two decimal places, the normalization
applied by one encode/decode round trip. -/
def normAmount (e : Expense) : Expense := { e with amount := round2 e.amount }

def CSV_HEADER : List Str := ["Date".data, "Category".data, "Amount".data, "Description".data]

def CATEGORIES : List Str :=
  ["Food".data, "Transport".data, "Entertainment".data, "Shopping".data,
   "Bills".data, "Health".data, "Education".data, "Other".data]

/-- One row of `load_expenses`' loop body: skip rows with fewer than 3
fields, then decode, skipping decode failures. -/
def decode_row (row : List Str) : Option Expense :=
  if row.length < 3 then none else Expense.from_row row

/-- The `for i, row in enumerate(reader)` loop of `load_expenses`:
`i` is the enumeration index, row 0 (the header) is skipped. -/
def loadLoop (i : Nat) : List (List Str) → List Expense
  | [] => []
  | row :: rest =>
    if i = 0 then loadLoop (i + 1) rest
    else
      match decode_row row with
      | some e => e :: loadLoop (i + 1) rest
      | none => loadLoop (i + 1) rest

/-- `load_expenses`, on the already-CSV-split content of the store file. -/
def load_expenses (rows : List (List Str)) : List Expense := loadLoop 0 rows

/-- The `for e in expenses: writer.writerow(e.to_row())` loop of
`save_expenses`. -/
def saveRows : List Expense → List (List Str)
  | [] => []
  | e :: rest => e.to_row :: saveRows rest

/-- `save_expenses`: the store content written for `expenses` — the
header row followed by one encoded row per record. -/
def save_expenses (expenses : List Expense) : List (List Str) :=
  CSV_HEADER :: saveRows expenses

/-- `valid_amount`: `float(s)` succeeds and the value is `>= 0`. -/
def valid_amount (s : Str) : Bool :=
  match pyFloat s with
  | some v => decide (0 ≤ v)
  | none => false

/-- Split a character list on a separator character (every occurrence,
keeping empty parts), as a regex with literal separators between
separator-free character classes does. -/
def splitSep (sep : Char) : Str → List Str
  | [] => [[]]
  | c :: rest =>
    if c = sep then [] :: splitSep sep rest
    else
      match splitSep sep rest with
      | [] => [[c]]
      | p :: ps => (c :: p) :: ps

/-- Join with a separator, left inverse of `splitSep`. -/
def joinSep (sep : Char) : List Str → Str
  | [] => []
  | [p] => p
  | p :: ps => p ++ sep :: joinSep sep ps

/-- Gregorian leap-year rule, as in `datetime`. -/
def isLeap (y : Nat) : Bool :=
  (decide (y % 4 = 0) && !decide (y % 100 = 0)) || decide (y % 400 = 0)

/-- Days in a month, as in `datetime`. -/
def daysInMonth (y m : Nat) : Nat :=
  if m = 2 then (if isLeap y then 29 else 28)
  else if m = 4 ∨ m = 6 ∨ m = 9 ∨ m = 11 then 30
  else 31

/-- The `%Y` field of CPython's strptime: exactly four digit characters. -/
def yearMatch : Str → Option Nat
  | [c1, c2, c3, c4] =>
    if [c1, c2, c3, c4].all isDigitChar then some (valDigits [c1, c2, c3, c4]) else none
  | _ => none

/-- The `%m` field of CPython's strptime, the regex alternation
`1[0-2]`, `0[1-9]`, `[1-9]` (so a one-digit month is accepted). -/
def monthMatch : Str → Option Nat
  | [c] => if isDigitChar c ∧ 1 ≤ digVal c then some (digVal c) else none
  | [c1, c2] =>
    if c1 = '1' ∧ isDigitChar c2 ∧ digVal c2 ≤ 2 then some (10 + digVal c2)
    else if c1 = '0' ∧ isDigitChar c2 ∧ 1 ≤ digVal c2 then some (digVal c2)
    else none
  | _ => none

/-- The `%d` field of CPython's strptime, the regex alternation
`3[01]`, `[12]\d`, `0[1-9]`, `[1-9]` (so a one-digit day is accepted). -/
def dayMatch : Str → Option Nat
  | [c] => if isDigitChar c ∧ 1 ≤ digVal c then some (digVal c) else none
  | [c1, c2] =>
    if c1 = '3' ∧ (c2 = '0' ∨ c2 = '1') then some (30 + digVal c2)
    else if (c1 = '1' ∨ c1 = '2') ∧ isDigitChar c2 then some (10 * digVal c1 + digVal c2)
    else if c1 = '0' ∧ isDigitChar c2 ∧ 1 ≤ digVal c2 then some (digVal c2)
    else none
  | _ => none

/-- `valid_date`: `datetime.strptime(s, "%Y-%m-%d")` succeeds.  The
strptime regex is `\d\d\d\d-M-D` anchored at both ends with `M`, `D` the
digit-only month and day alternations, so a full match is exactly a
three-way split of `s` at `'-'` whose parts match the three fields; the
constructed date must then satisfy `datetime`'s range checks
(`MINYEAR = 1 ≤ year` and the day at most the month length; the month
range is enforced by the regex, the year is at most `9999` because it
has four digits). -/
def valid_date (s : Str) : Bool :=
  match splitSep '-' s with
  | [ys, ms, ds] =>
    match yearMatch ys, monthMatch ms, dayMatch ds with
    | some y, some m, some d => decide (1 ≤ y) && decide (d ≤ daysInMonth y m)
    | _, _, _ => false
  | _ => false

/-- The date shape the specification describes: exactly `YYYY-MM-DD`
with a four-digit year, a two-digit month `01`–`12`, and a two-digit day
valid for that month and year, with no extra characters. -/
def specDateC2 (s : Str) : Bool :=
  match s with
  | [y1, y2, y3, y4, h1, m1, m2, h2, d1, d2] =>
    [y1, y2, y3, y4].all isDigitChar && (h1 = '-' : Bool) && (h2 = '-' : Bool) &&
      [m1, m2].all isDigitChar && [d1, d2].all isDigitChar &&
      (let y := valDigits [y1, y2, y3, y4]
       let m := valDigits [m1, m2]
       let d := valDigits [d1, d2]
       decide (1 ≤ m) && decide (m ≤ 12) && decide (1 ≤ d) && decide (d ≤ daysInMonth y m))
  | _ => false

/-- What `valid_date` actually accepts, stated in the specification's
vocabulary: a three-part shape `Y-M-D` where `Y` is exactly four digits
with value at least 1, `M` is one or two digits with value `1`–`12`, and
`D` is one or two digits whose value is a valid day of that month and
year. -/
def AmendedDateSpec (s : Str) : Prop :=
  ∃ ys ms ds : Str,
    s = ys ++ '-' :: (ms ++ '-' :: ds) ∧
    ys.length = 4 ∧ ys.all isDigitChar = true ∧ 1 ≤ valDigits ys ∧
    1 ≤ ms.length ∧ ms.length ≤ 2 ∧ ms.all isDigitChar = true ∧
    1 ≤ valDigits ms ∧ valDigits ms ≤ 12 ∧
    1 ≤ ds.length ∧ ds.length ≤ 2 ∧ ds.all isDigitChar = true ∧
    1 ≤ valDigits ds ∧ valDigits ds ≤ daysInMonth (valDigits ys) (valDigits ms)

/-- `total_expense`: `sum(e.amount for e in expenses)`, a left fold
from `0`. -/
def total_expense (expenses : List Expense) : ℚ :=
  expenses.foldl (fun acc e => acc + e.amount) 0

/-- `average_expense`: `0` for the empty list, else total over count. -/
def average_expense (expenses : List Expense) : ℚ :=
  if expenses.isEmpty then 0 else total_expense expenses / (expenses.length : ℚ)

/-- Python `d[k] += a` on a `defaultdict(float)`: update the entry in
place when the key is present, append it otherwise (dicts preserve
insertion order). -/
def updAdd : List (Str × ℚ) → Str → ℚ → List (Str × ℚ)
  | [], k, a => [(k, a)]
  | (k0, v) :: rest, k, a =>
    if k0 = k then (k0, v + a) :: rest else (k0, v) :: updAdd rest k a

/-- Dictionary lookup on the association-list model. -/
def lookupQ : List (Str × ℚ) → Str → Option ℚ
  | [], _ => none
  | (k0, v) :: rest, k => if k0 = k then some v else lookupQ rest k

/-- The keys of the association-list model of a dict. -/
def keysOf (d : List (Str × ℚ)) : List Str := d.map Prod.fst

/-- The sum of the values of the association-list model of a dict. -/
def sumValues (d : List (Str × ℚ)) : ℚ := (d.map Prod.snd).sum

/-- The accumulation loop shared by `category_summary` and
`monthly_summary`: fold `d[key(e)] += e.amount` over the records. -/
def groupSum (key : Expense → Str) (expenses : List Expense) : List (Str × ℚ) :=
  expenses.foldl (fun d e => updAdd d (key e) e.amount) []

/-- `category_summary`: per-category sums. -/
def category_summary (expenses : List Expense) : List (Str × ℚ) :=
  groupSum (fun e => e.category) expenses

/-- `monthly_summary`: sums keyed by `e.date[:7]`. -/
def monthly_summary (expenses : List Expense) : List (Str × ℚ) :=
  groupSum (fun e => e.date.take 7) expenses

/-- The sum of the amounts of the records whose key equals `k`. -/
def sumByKey (key : Expense → Str) (expenses : List Expense) (k : Str) : ℚ :=
  ((expenses.filter fun e => decide (key e = k)).map Expense.amount).sum

/-- Python `str.lower()` (ASCII model). -/
def toLowerStr (l : Str) : Str := l.map Char.toLower

/-- Does `hay` start with `needle`? -/
def startsWithStr : Str → Str → Bool
  | [], _ => true
  | _ :: _, [] => false
  | a :: as, b :: bs => decide (a = b) && startsWithStr as bs

/-- Python's `needle in hay` on strings: contiguous substring test. -/
def occursIn (needle : Str) : Str → Bool
  | [] => needle.isEmpty
  | c :: rest => startsWithStr needle (c :: rest) || occursIn needle rest

/-- `needle` occurs contiguously inside `hay`. -/
def SubstringOf (needle hay : Str) : Prop :=
  ∃ pre post : Str, hay = pre ++ needle ++ post

/-- The filter predicate of `search_expenses_flow` for an
already-normalized query `q`. -/
def matchesQuery (q : Str) (e : Expense) : Bool :=
  occursIn q (toLowerStr e.category) || occursIn q (toLowerStr e.description) ||
    occursIn q e.date

/-- `search_expenses_flow`: normalize the raw input with
`.strip().lower()`; an empty query returns nothing, otherwise keep the
records the query matches. -/
def search_expenses_flow (input : Str) (expenses : List Expense) : List Expense :=
  let q := toLowerStr (pyStrip input)
  if q.isEmpty then [] else expenses.filter (matchesQuery q)

/-- Category resolution of `add_expense_flow` (lines 225–228): blank
input defaults to `"Other"`, anything not in the fixed list is replaced
by `"Other"`.  `input` is the already-stripped text. -/
def resolve_category_add (input : Str) : Str :=
  let cat := if input.isEmpty then "Other".data else input
  if cat ∈ CATEGORIES then cat else "Other".data

/-- Category resolution of `edit_expense_flow` (lines 293–294), applied
to a non-blank stripped input. -/
def resolve_category_edit (input : Str) : Str :=
  if input ∈ CATEGORIES then input else "Other".data

/-! ## Digit strings -/

theorem digVal_digitChar : ∀ d < 10, digVal (Nat.digitChar d) = d := by decide

theorem isDigitChar_digitChar : ∀ d < 10, isDigitChar (Nat.digitChar d) = true := by decide

theorem foldl_digits_eq (ds : List ℕ) (h : ∀ d ∈ ds, d < 10) (a : ℕ) :
    List.foldl (fun n c => 10 * n + digVal c) a (ds.reverse.map Nat.digitChar) =
      a * 10 ^ ds.length + Nat.ofDigits 10 ds := by
  induction ds generalizing a with
  | nil => simp
  | cons d ds ih =>
    rw [List.reverse_cons, List.map_append, List.foldl_append]
    simp only [List.map_cons, List.map_nil, List.foldl_cons, List.foldl_nil]
    rw [ih (fun x hx => h x (List.mem_cons_of_mem _ hx)) a,
      digVal_digitChar d (h d (List.mem_cons_self _ _)), Nat.ofDigits_cons]
    simp only [List.length_cons, pow_succ]
    ring

theorem valDigits_natDigits (n : ℕ) : valDigits (natDigits n) = n := by
  by_cases h : n = 0
  · subst h; decide
  · unfold natDigits valDigits
    rw [if_neg h,
      foldl_digits_eq (Nat.digits 10 n) (fun d hd => Nat.digits_lt_base (by norm_num) hd) 0,
      Nat.ofDigits_digits]
    simp

theorem natDigits_ne_nil (n : ℕ) : natDigits n ≠ [] := by
  unfold natDigits
  split
  · simp
  · simp [Nat.digits_ne_nil_iff_ne_zero, *]

theorem natDigits_all_digits (n : ℕ) : (natDigits n).all isDigitChar = true := by
  unfold natDigits
  split
  · decide
  · rw [List.all_eq_true]
    intro c hc
    rw [List.mem_map] at hc
    obtain ⟨d, hd, rfl⟩ := hc
    rw [List.mem_reverse] at hd
    exact isDigitChar_digitChar d (Nat.digits_lt_base (by norm_num) hd)

theorem twoDigits_spec :
    ∀ k < 100, valDigits (twoDigits k) = k ∧ (twoDigits k).all isDigitChar = true := by decide

/-! ## Characters that occur in numeric output -/

theorem digit_char_shape {c : Char} (h : isDigitChar c = true) :
    c ≠ '+' ∧ c ≠ '-' ∧ c ≠ '.' ∧ isSpaceChar c = false := by
  refine ⟨?_, ?_, ?_, ?_⟩
  · intro hc; subst hc; exact absurd h (by decide)
  · intro hc; subst hc; exact absurd h (by decide)
  · intro hc; subst hc; exact absurd h (by decide)
  · by_contra hs
    rw [Bool.not_eq_false] at hs
    unfold isSpaceChar Char.isWhitespace at hs
    simp only [Bool.or_eq_true, decide_eq_true_eq] at hs
    rcases hs with ((hc | hc) | hc) | hc <;> (subst hc; exact absurd h (by decide))

/-! ## takeWhile, dropWhile and strip -/

theorem takeWhile_append_sat {p : Char → Bool} {xs : Str} (h : ∀ c ∈ xs, p c = true)
    {y : Char} (hy : p y = false) (ys : Str) :
    (xs ++ y :: ys).takeWhile p = xs ∧ (xs ++ y :: ys).dropWhile p = y :: ys := by
  induction xs with
  | nil => simp [List.takeWhile_cons, List.dropWhile_cons, hy]
  | cons x xs ih =>
    have hx : p x = true := h x (List.mem_cons_self _ _)
    have ih' := ih fun c hc => h c (List.mem_cons_of_mem _ hc)
    simp only [List.cons_append, List.takeWhile_cons, List.dropWhile_cons, hx, if_true]
    exact ⟨by rw [ih'.1], by rw [ih'.2]⟩

theorem takeWhile_eq_self {p : Char → Bool} {l : Str} (h : ∀ c ∈ l, p c = true) :
    l.takeWhile p = l := by
  induction l with
  | nil => rfl
  | cons x xs ih =>
    have hx : p x = true := h x (List.mem_cons_self _ _)
    simp only [List.takeWhile_cons, hx, if_true]
    rw [ih fun c hc => h c (List.mem_cons_of_mem _ hc)]

theorem dropWhile_eq_self {p : Char → Bool} {l : Str} (h : ∀ c ∈ l, p c = false) :
    l.dropWhile p = l := by
  cases l with
  | nil => rfl
  | cons x xs =>
    have hx : p x = false := h x (List.mem_cons_self _ _)
    simp [List.dropWhile_cons, hx]

theorem dropWhile_eq_nil {p : Char → Bool} {l : Str} (h : ∀ c ∈ l, p c = true) :
    l.dropWhile p = [] := by
  induction l with
  | nil => rfl
  | cons x xs ih =>
    have hx : p x = true := h x (List.mem_cons_self _ _)
    simp only [List.dropWhile_cons, hx, if_true]
    exact ih fun c hc => h c (List.mem_cons_of_mem _ hc)

theorem pyStrip_eq_self {l : Str} (h : ∀ c ∈ l, isSpaceChar c = false) : pyStrip l = l := by
  unfold pyStrip
  rw [dropWhile_eq_self h, dropWhile_eq_self (fun c hc => h c (List.mem_reverse.mp hc)),
    List.reverse_reverse]

/-! ## Rounding -/

theorem roundHalfEven_mem (x : ℚ) : roundHalfEven x = ⌊x⌋ ∨ roundHalfEven x = ⌊x⌋ + 1 := by
  unfold roundHalfEven
  dsimp only
  split_ifs <;> simp

theorem roundHalfEven_nonneg {x : ℚ} (h : 0 ≤ x) : 0 ≤ roundHalfEven x := by
  have h0 : 0 ≤ ⌊x⌋ := Int.floor_nonneg.mpr h
  rcases roundHalfEven_mem x with h1 | h1 <;> omega

theorem roundHalfEven_nonpos {x : ℚ} (h : x < 0) : roundHalfEven x ≤ 0 := by
  have h0 : ⌊x⌋ < 0 := by
    by_contra hc
    push_neg at hc
    have hcast : (0 : ℚ) ≤ (⌊x⌋ : ℚ) := by exact_mod_cast hc
    have := Int.floor_le x
    linarith
  rcases roundHalfEven_mem x with h1 | h1 <;> omega

/-! ## Parsing back fixed-point output -/

theorem notDot_of_digit {c : Char} (h : isDigitChar c = true) : notDot c = true := by
  unfold notDot
  simp [(digit_char_shape h).2.2.1]

theorem parseUnsignedDec_fixed {A B : Str} (hA : A.all isDigitChar = true) (hAne : A ≠ [])
    (hB : B.all isDigitChar = true) :
    parseUnsignedDec (A ++ '.' :: B) =
      some ((valDigits A : ℚ) + (valDigits B : ℚ) / (10 : ℚ) ^ B.length) := by
  have hpA : ∀ c ∈ A, notDot c = true := by
    intro c hc
    rw [List.all_eq_true] at hA
    exact notDot_of_digit (hA c hc)
  have hdot : notDot '.' = false := by decide
  have ht := takeWhile_append_sat hpA hdot B
  unfold parseUnsignedDec
  dsimp only
  rw [ht.1, ht.2]
  have hAe : A.isEmpty = false := by simp [hAne]
  simp [hAe, hA, hB]

theorem pyFloat_head_eq {s : Str} {c : Char} {rest : Str} (h : pyStrip s = c :: rest) :
    pyFloat s =
      if c = '+' then parseUnsignedDec rest
      else if c = '-' then (parseUnsignedDec rest).map (fun x => -x)
      else parseUnsignedDec (c :: rest) := by
  unfold pyFloat
  rw [h]

theorem natAbs_div_add_mod_q (na : ℕ) :
    ((na / 100 : ℕ) : ℚ) + ((na % 100 : ℕ) : ℚ) / (10 : ℚ) ^ 2 = (na : ℚ) / 100 := by
  have hdm : (na / 100) * 100 + na % 100 = na := by omega
  field_simp
  norm_num
  exact_mod_cast hdm

theorem formatFixed2_no_space (x : ℚ) : ∀ c ∈ formatFixed2 x, isSpaceChar c = false := by
  intro c hc
  unfold formatFixed2 at hc
  dsimp only at hc
  rcases List.mem_append.mp hc with h1 | h1
  · rcases List.mem_append.mp h1 with h2 | h2
    · revert h2
      split_ifs
      · intro h2
        rw [List.mem_singleton] at h2
        subst h2
        decide
      · intro h2
        exact absurd h2 (List.not_mem_nil c)
    · have hall := natDigits_all_digits ((roundHalfEven (100 * x)).natAbs / 100)
      rw [List.all_eq_true] at hall
      exact (digit_char_shape (hall c h2)).2.2.2
  · rcases List.mem_cons.mp h1 with h3 | h3
    · subst h3; decide
    · have hlt : (roundHalfEven (100 * x)).natAbs % 100 < 100 := Nat.mod_lt _ (by norm_num)
      have hall := (twoDigits_spec _ hlt).2
      rw [List.all_eq_true] at hall
      exact (digit_char_shape (hall c h3)).2.2.2

theorem pyFloat_formatFixed2 (x : ℚ) : pyFloat (formatFixed2 x) = some (round2 x) := by
  have hstrip : pyStrip (formatFixed2 x) = formatFixed2 x :=
    pyStrip_eq_self (formatFixed2_no_space x)
  have hfrac_lt : (roundHalfEven (100 * x)).natAbs % 100 < 100 := Nat.mod_lt _ (by norm_num)
  have htwo := twoDigits_spec _ hfrac_lt
  have hA := natDigits_all_digits ((roundHalfEven (100 * x)).natAbs / 100)
  have hAne := natDigits_ne_nil ((roundHalfEven (100 * x)).natAbs / 100)
  have hparse : parseUnsignedDec
      (natDigits ((roundHalfEven (100 * x)).natAbs / 100) ++
        '.' :: twoDigits ((roundHalfEven (100 * x)).natAbs % 100)) =
      some (((roundHalfEven (100 * x)).natAbs : ℚ) / 100) := by
    rw [parseUnsignedDec_fixed hA hAne htwo.2, valDigits_natDigits, htwo.1]
    have hlen : (twoDigits ((roundHalfEven (100 * x)).natAbs % 100)).length = 2 := rfl
    rw [hlen, natAbs_div_add_mod_q]
  by_cases hx : x < 0
  · have hform : formatFixed2 x =
        '-' :: (natDigits ((roundHalfEven (100 * x)).natAbs / 100) ++
          '.' :: twoDigits ((roundHalfEven (100 * x)).natAbs % 100)) := by
      unfold formatFixed2
      rw [if_pos hx]
      rfl
    rw [pyFloat_head_eq (hstrip.trans hform), if_neg (by decide), if_pos rfl, hparse]
    have hns : roundHalfEven (100 * x) ≤ 0 :=
      roundHalfEven_nonpos (mul_neg_of_pos_of_neg (by norm_num) hx)
    have hcast : ((roundHalfEven (100 * x)).natAbs : ℚ) = -((roundHalfEven (100 * x) : ℤ) : ℚ) := by
      rw [Int.cast_natAbs]
      exact_mod_cast abs_of_nonpos hns
    unfold round2
    rw [Option.map_some', hcast]
    ring_nf
  · push_neg at hx
    obtain ⟨c0, cs, hcons⟩ :=
      List.exists_cons_of_ne_nil (natDigits_ne_nil ((roundHalfEven (100 * x)).natAbs / 100))
    have hc0 : isDigitChar c0 = true := by
      have hall := natDigits_all_digits ((roundHalfEven (100 * x)).natAbs / 100)
      rw [List.all_eq_true] at hall
      exact hall c0 (by rw [hcons]; exact List.mem_cons_self _ _)
    have hform : formatFixed2 x =
        c0 :: (cs ++ '.' :: twoDigits ((roundHalfEven (100 * x)).natAbs % 100)) := by
      unfold formatFixed2
      dsimp only
      rw [if_neg (not_lt.mpr hx), hcons]
      rfl
    rw [pyFloat_head_eq (hstrip.trans hform), if_neg ((digit_char_shape hc0).1),
      if_neg ((digit_char_shape hc0).2.1)]
    have hre : c0 :: (cs ++ '.' :: twoDigits ((roundHalfEven (100 * x)).natAbs % 100)) =
        natDigits ((roundHalfEven (100 * x)).natAbs / 100) ++
          '.' :: twoDigits ((roundHalfEven (100 * x)).natAbs % 100) := by
      rw [hcons]
      rfl
    rw [hre, hparse]
    have hns : 0 ≤ roundHalfEven (100 * x) :=
      roundHalfEven_nonneg (mul_nonneg (by norm_num) hx)
    have hcast : ((roundHalfEven (100 * x)).natAbs : ℚ) = ((roundHalfEven (100 * x) : ℤ) : ℚ) := by
      rw [Int.cast_natAbs]
      exact_mod_cast abs_of_nonneg hns
    unfold round2
    rw [hcast]

/-- One encode/decode round trip normalizes the amount to two decimal
places and preserves every other field. -/
theorem from_row_to_row (e : Expense) : Expense.from_row e.to_row = some (normAmount e) := by
  unfold Expense.to_row Expense.from_row
  dsimp only
  rw [pyFloat_formatFixed2]
  rfl

/-! ## Loading and saving -/

theorem loadLoop_pos (rows : List (List Str)) : ∀ i : Nat,
    loadLoop (i + 1) rows = rows.filterMap decode_row := by
  induction rows with
  | nil => intro i; rfl
  | cons row rest ih =>
    intro i
    rw [loadLoop, if_neg (Nat.succ_ne_zero i), List.filterMap_cons]
    cases h : decode_row row with
    | none => rw [ih (i + 1)]
    | some e => rw [ih (i + 1)]

theorem load_expenses_eq (rows : List (List Str)) :
    load_expenses rows = (rows.drop 1).filterMap decode_row := by
  cases rows with
  | nil => rfl
  | cons r rest =>
    unfold load_expenses
    rw [loadLoop, if_pos rfl, loadLoop_pos rest 0]
    rfl

theorem saveRows_eq (xs : List Expense) : saveRows xs = xs.map Expense.to_row := by
  induction xs with
  | nil => rfl
  | cons e rest ih => rw [saveRows, List.map_cons, ih]

theorem decode_row_to_row (e : Expense) : decode_row e.to_row = some (normAmount e) := by
  unfold decode_row
  rw [if_neg (by simp [Expense.to_row])]
  exact from_row_to_row e

theorem load_save (xs : List Expense) :
    load_expenses (save_expenses xs) = xs.map normAmount := by
  unfold save_expenses
  rw [load_expenses_eq, List.drop_one, List.tail_cons, saveRows_eq, List.filterMap_map]
  induction xs with
  | nil => rfl
  | cons e rest ih =>
    rw [List.filterMap_cons, List.map_cons]
    simp only [Function.comp_apply, decode_row_to_row]
    rw [ih]

/-! ## Claims about the record model and persistence -/

/-- Claim C1: for every Expense with non-negative amount and valid date,
decoding the encoded row gives the record back with the amount replaced
by its two-decimal rounding. -/
theorem claim_C1_roundtrip (e : Expense) (hdate : valid_date e.date = true)
    (hamt : 0 ≤ e.amount) :
    Expense.from_row e.to_row = some { e with amount := round2 e.amount } :=
  from_row_to_row e

theorem claim_C1_roundtrip_witness :
    valid_date ("2024-02-29".data) = true ∧ (0 : ℚ) ≤ 7 / 2 ∧
    Expense.from_row
        (Expense.to_row
          { amount := 7 / 2, category := "Food".data, date := "2024-02-29".data,
            description := "team lunch".data }) =
      some { amount := round2 (7 / 2), category := "Food".data, date := "2024-02-29".data,
             description := "team lunch".data } :=
  ⟨by decide, by norm_num,
    claim_C1_roundtrip
      { amount := 7 / 2, category := "Food".data, date := "2024-02-29".data,
        description := "team lunch".data }
      (by decide) (by norm_num)⟩

/-- Claim C3: `load_expenses` reads every row after the header in order,
skipping rows with fewer than 3 fields and rows whose amount does not
parse; on a store with one well-formed row and one row with a
non-numeric amount it returns exactly the well-formed record. -/
theorem claim_C3_load_skips :
    (∀ rows : List (List Str), load_expenses rows = (rows.drop 1).filterMap decode_row) ∧
    load_expenses [CSV_HEADER,
        ["2024-01-15".data, "Food".data, "12.50".data, "lunch".data],
        ["2024-01-16".data, "Bills".data, "abc".data, "x".data]] =
      [{ amount := 25 / 2, category := "Food".data, date := "2024-01-15".data,
         description := "lunch".data }] := by
  refine ⟨load_expenses_eq, ?_⟩
  have hp : pyFloat "12.50".data = some (25 / 2 : ℚ) := by
    have hv1 : valDigits ['1', '2'] = 12 := rfl
    have hv2 : valDigits ['5', '0'] = 50 := rfl
    have h0 : pyFloat "12.50".data =
        some ((valDigits ['1', '2'] : ℚ) + (valDigits ['5', '0'] : ℚ) / (10 : ℚ) ^ 2) := rfl
    rw [h0, hv1, hv2]
    norm_num
  have hgood : decode_row ["2024-01-15".data, "Food".data, "12.50".data, "lunch".data] =
      some { amount := 25 / 2, category := "Food".data, date := "2024-01-15".data,
             description := "lunch".data } := by
    have h1 : decode_row ["2024-01-15".data, "Food".data, "12.50".data, "lunch".data] =
        (pyFloat "12.50".data).map
          (fun a => { amount := a, category := "Food".data, date := "2024-01-15".data,
                      description := "lunch".data }) := rfl
    rw [h1, hp]
    rfl
  have hbad : decode_row ["2024-01-16".data, "Bills".data, "abc".data, "x".data] = none := rfl
  rw [load_expenses_eq]
  rw [List.drop_one, List.tail_cons, List.filterMap_cons, hgood, List.filterMap_cons, hbad,
    List.filterMap_nil]

/-- Claim C4: `save_expenses` writes exactly the header followed by one
encoded row per record in order, and saving what was loaded changes the
decoded content only by two-decimal normalization of the amounts. -/
theorem claim_C4_save_load :
    (∀ xs : List Expense, save_expenses xs = CSV_HEADER :: xs.map Expense.to_row) ∧
    (∀ xs : List Expense, load_expenses (save_expenses xs) = xs.map normAmount) ∧
    (∀ rows : List (List Str),
      load_expenses (save_expenses (load_expenses rows)) = (load_expenses rows).map normAmount) :=
  ⟨fun xs => by rw [save_expenses, saveRows_eq],
   load_save,
   fun rows => load_save (load_expenses rows)⟩

/-! ## Validation and reporting claims -/

/-- Claim C5: `valid_amount s` is true exactly when `s` parses as a
(rational) number that is at least `0`; in particular for the four
example inputs. -/
theorem claim_C5_valid_amount :
    (∀ s : Str, valid_amount s = true ↔ ∃ x : ℚ, pyFloat s = some x ∧ 0 ≤ x) ∧
    valid_amount "-5".data = false ∧ valid_amount "0".data = true ∧
    valid_amount "12.5".data = true ∧ valid_amount "abc".data = false := by
  refine ⟨?_, ?_, ?_, ?_, ?_⟩
  · intro s
    unfold valid_amount
    cases h : pyFloat s with
    | none => simp
    | some v => simp
  · have h : valid_amount "-5".data = decide ((0 : ℚ) ≤ -((valDigits ['5'] : ℕ) : ℚ)) := rfl
    rw [h, show valDigits ['5'] = 5 from rfl]
    simp only [decide_eq_false_iff_not]
    norm_num
  · have h : valid_amount "0".data = decide ((0 : ℚ) ≤ ((valDigits ['0'] : ℕ) : ℚ)) := rfl
    rw [h, show valDigits ['0'] = 0 from rfl, decide_eq_true_eq]
    norm_num
  · have h : valid_amount "12.5".data =
        decide ((0 : ℚ) ≤ ((valDigits ['1', '2'] : ℕ) : ℚ) +
          ((valDigits ['5'] : ℕ) : ℚ) / (10 : ℚ) ^ 1) := rfl
    rw [h, show valDigits ['1', '2'] = 12 from rfl, show valDigits ['5'] = 5 from rfl,
      decide_eq_true_eq]
    norm_num
  · rfl

theorem total_foldl (xs : List Expense) : ∀ a : ℚ,
    xs.foldl (fun acc e => acc + e.amount) a = a + (xs.map Expense.amount).sum := by
  induction xs with
  | nil => intro a; simp
  | cons e rest ih =>
    intro a
    rw [List.foldl_cons, ih (a + e.amount), List.map_cons, List.sum_cons]
    ring

/-- Claim C6: `total_expense` is the sum of the amounts (`0` on the
empty list) and `average_expense` is total over count for non-empty
input and `0` on the empty list. -/
theorem claim_C6_total_average :
    total_expense [] = 0 ∧ average_expense [] = 0 ∧
    (∀ xs : List Expense, total_expense xs = (xs.map Expense.amount).sum) ∧
    (∀ xs : List Expense, xs ≠ [] →
      average_expense xs = total_expense xs / (xs.length : ℚ)) := by
  refine ⟨rfl, rfl, ?_, ?_⟩
  · intro xs
    unfold total_expense
    rw [total_foldl xs 0, zero_add]
  · intro xs h
    unfold average_expense
    rw [if_neg]
    simp [List.isEmpty_iff, h]

theorem claim_C6_total_average_witness :
    average_expense
        [{ amount := 4, category := "Food".data, date := "2024-01-01".data, description := [] }] =
      total_expense
          [{ amount := 4, category := "Food".data, date := "2024-01-01".data, description := [] }] /
        (([{ amount := 4, category := "Food".data, date := "2024-01-01".data,
             description := [] }] : List Expense).length : ℚ) :=
  claim_C6_total_average.2.2.2 _ (List.cons_ne_nil _ _)

/-! ## The defaultdict accumulation model -/

theorem lookupQ_updAdd_self (d : List (Str × ℚ)) (k : Str) (a : ℚ) :
    lookupQ (updAdd d k a) k = some ((lookupQ d k).getD 0 + a) := by
  induction d with
  | nil => simp [updAdd, lookupQ]
  | cons p rest ih =>
    obtain ⟨k0, v⟩ := p
    by_cases h0 : k0 = k
    · subst h0
      simp [updAdd, lookupQ]
    · rw [updAdd, if_neg h0, lookupQ, if_neg h0, ih, lookupQ, if_neg h0]

theorem lookupQ_updAdd_other (d : List (Str × ℚ)) {k k' : Str} (h : k' ≠ k) (a : ℚ) :
    lookupQ (updAdd d k a) k' = lookupQ d k' := by
  induction d with
  | nil =>
    simp only [updAdd, lookupQ]
    rw [if_neg (fun hc => h hc.symm)]
  | cons p rest ih =>
    obtain ⟨k0, v⟩ := p
    by_cases h0 : k0 = k
    · subst h0
      rw [updAdd, if_pos rfl, lookupQ, lookupQ,
        if_neg (fun hc => h hc.symm), if_neg (fun hc => h hc.symm)]
    · rw [updAdd, if_neg h0, lookupQ, lookupQ]
      by_cases h1 : k0 = k'
      · rw [if_pos h1, if_pos h1]
      · rw [if_neg h1, if_neg h1, ih]

theorem keysOf_updAdd (d : List (Str × ℚ)) (k k' : Str) (a : ℚ) :
    k' ∈ keysOf (updAdd d k a) ↔ k' ∈ keysOf d ∨ k' = k := by
  induction d with
  | nil => simp [updAdd, keysOf]
  | cons p rest ih =>
    obtain ⟨k0, v⟩ := p
    by_cases h0 : k0 = k
    · subst h0
      rw [updAdd, if_pos rfl]
      simp only [keysOf, List.map_cons, List.mem_cons]
      tauto
    · rw [updAdd, if_neg h0]
      simp only [keysOf, List.map_cons, List.mem_cons] at ih ⊢
      tauto

theorem sumValues_updAdd (d : List (Str × ℚ)) (k : Str) (a : ℚ) :
    sumValues (updAdd d k a) = sumValues d + a := by
  induction d with
  | nil => simp [updAdd, sumValues]
  | cons p rest ih =>
    obtain ⟨k0, v⟩ := p
    by_cases h0 : k0 = k
    · subst h0
      rw [updAdd, if_pos rfl]
      simp only [sumValues, List.map_cons, List.sum_cons]
      ring
    · rw [updAdd, if_neg h0]
      simp only [sumValues, List.map_cons, List.sum_cons] at ih ⊢
      rw [ih]
      ring

theorem lookupQ_eq_none_iff (d : List (Str × ℚ)) (k : Str) :
    lookupQ d k = none ↔ k ∉ keysOf d := by
  induction d with
  | nil => simp [lookupQ, keysOf]
  | cons p rest ih =>
    obtain ⟨k0, v⟩ := p
    simp only [lookupQ, keysOf, List.map_cons, List.mem_cons]
    by_cases h0 : k0 = k
    · subst h0
      simp
    · rw [if_neg h0, keysOf] at *
      simp only [ih]
      constructor
      · intro hn
        rintro (hc | hc)
        · exact h0 hc.symm
        · exact hn hc
      · intro hn hc
        exact hn (Or.inr hc)

theorem sumByKey_cons (key : Expense → Str) (e : Expense) (rest : List Expense) (k : Str) :
    sumByKey key (e :: rest) k =
      (if key e = k then e.amount else 0) + sumByKey key rest k := by
  unfold sumByKey
  rw [List.filter_cons]
  by_cases h : key e = k
  · simp [h]
  · simp [h]

theorem total_expense_cons (e : Expense) (rest : List Expense) :
    total_expense (e :: rest) = e.amount + total_expense rest := by
  unfold total_expense
  rw [List.foldl_cons, total_foldl, total_foldl]
  ring

theorem foldl_upd_lookup (key : Expense → Str) (xs : List Expense) :
    ∀ (d : List (Str × ℚ)) (k : Str),
      (lookupQ (xs.foldl (fun d e => updAdd d (key e) e.amount) d) k).getD 0 =
        (lookupQ d k).getD 0 + sumByKey key xs k := by
  induction xs with
  | nil => intro d k; simp [sumByKey]
  | cons e rest ih =>
    intro d k
    rw [List.foldl_cons, ih (updAdd d (key e) e.amount) k, sumByKey_cons]
    by_cases h : key e = k
    · subst h
      rw [lookupQ_updAdd_self, if_pos rfl]
      simp only [Option.getD_some]
      ring
    · rw [lookupQ_updAdd_other d (fun hc => h hc.symm), if_neg h]
      ring

theorem foldl_upd_keys (key : Expense → Str) (xs : List Expense) :
    ∀ (d : List (Str × ℚ)) (k : Str),
      k ∈ keysOf (xs.foldl (fun d e => updAdd d (key e) e.amount) d) ↔
        k ∈ keysOf d ∨ k ∈ xs.map key := by
  induction xs with
  | nil => intro d k; simp
  | cons e rest ih =>
    intro d k
    rw [List.foldl_cons, ih (updAdd d (key e) e.amount) k, keysOf_updAdd,
      List.map_cons, List.mem_cons]
    tauto

theorem foldl_upd_sumValues (key : Expense → Str) (xs : List Expense) :
    ∀ d : List (Str × ℚ),
      sumValues (xs.foldl (fun d e => updAdd d (key e) e.amount) d) =
        sumValues d + total_expense xs := by
  induction xs with
  | nil => intro d; simp [total_expense]
  | cons e rest ih =>
    intro d
    rw [List.foldl_cons, ih (updAdd d (key e) e.amount), sumValues_updAdd,
      total_expense_cons]
    ring

theorem groupSum_keys (key : Expense → Str) (xs : List Expense) (k : Str) :
    k ∈ keysOf (groupSum key xs) ↔ k ∈ xs.map key := by
  unfold groupSum
  rw [foldl_upd_keys key xs [] k]
  simp [keysOf]

theorem groupSum_lookup_mem (key : Expense → Str) (xs : List Expense) {k : Str}
    (h : k ∈ xs.map key) :
    lookupQ (groupSum key xs) k = some (sumByKey key xs k) := by
  have hk : k ∈ keysOf (groupSum key xs) := (groupSum_keys key xs k).mpr h
  have hne : lookupQ (groupSum key xs) k ≠ none := by
    rw [ne_eq, lookupQ_eq_none_iff]
    simpa using hk
  obtain ⟨v, hv⟩ := Option.ne_none_iff_exists'.mp hne
  have hval := foldl_upd_lookup key xs [] k
  rw [groupSum] at hv
  rw [hv] at hval
  simp only [Option.getD_some, lookupQ, Option.getD_none, zero_add] at hval
  rw [groupSum, hv, hval]

theorem groupSum_lookup_not_mem (key : Expense → Str) (xs : List Expense) {k : Str}
    (h : k ∉ xs.map key) : lookupQ (groupSum key xs) k = none := by
  rw [lookupQ_eq_none_iff, groupSum_keys]
  exact h

theorem groupSum_sumValues (key : Expense → Str) (xs : List Expense) :
    sumValues (groupSum key xs) = total_expense xs := by
  unfold groupSum
  rw [foldl_upd_sumValues key xs []]
  simp [sumValues]

/-- Claim C7: `category_summary` maps exactly the categories present in
the list (absent ones are omitted), each to the sum of the amounts of
its records, and its values sum to `total_expense`. -/
theorem claim_C7_category_summary (xs : List Expense) :
    (∀ k : Str, k ∈ keysOf (category_summary xs) ↔ k ∈ xs.map Expense.category) ∧
    (∀ k : Str, k ∈ xs.map Expense.category →
      lookupQ (category_summary xs) k = some (sumByKey (fun e => e.category) xs k)) ∧
    (∀ k : Str, k ∉ xs.map Expense.category → lookupQ (category_summary xs) k = none) ∧
    sumValues (category_summary xs) = total_expense xs := by
  have hmap : xs.map (fun e => e.category) = xs.map Expense.category := rfl
  refine ⟨?_, ?_, ?_, ?_⟩
  · intro k
    rw [category_summary, groupSum_keys, hmap]
  · intro k hk
    exact groupSum_lookup_mem (fun e => e.category) xs (by rw [hmap]; exact hk)
  · intro k hk
    exact groupSum_lookup_not_mem (fun e => e.category) xs (by rw [hmap]; exact hk)
  · exact groupSum_sumValues (fun e => e.category) xs

theorem claim_C7_category_summary_witness :
    lookupQ
        (category_summary
          [{ amount := 1, category := "Food".data, date := "2024-01-01".data, description := [] },
           { amount := 2, category := "Food".data, date := "2024-02-01".data, description := [] }])
        "Food".data =
      some (sumByKey (fun e => e.category)
        [{ amount := 1, category := "Food".data, date := "2024-01-01".data, description := [] },
         { amount := 2, category := "Food".data, date := "2024-02-01".data, description := [] }]
        "Food".data) ∧
    lookupQ
        (category_summary
          [{ amount := 1, category := "Food".data, date := "2024-01-01".data, description := [] },
           { amount := 2, category := "Food".data, date := "2024-02-01".data, description := [] }])
        "Bills".data = none :=
  ⟨(claim_C7_category_summary _).2.1 _ (by simp),
   (claim_C7_category_summary _).2.2.1 _ (by simp)⟩

/-- Claim C10: `monthly_summary` maps exactly the 7-character date
prefixes present in the list, each to the sum of the amounts of the
records whose date starts with it, and its values sum to
`total_expense`. -/
theorem claim_C10_monthly_summary (xs : List Expense) :
    (∀ k : Str, k ∈ keysOf (monthly_summary xs) ↔ k ∈ xs.map (fun e => e.date.take 7)) ∧
    (∀ k : Str, k ∈ xs.map (fun e => e.date.take 7) →
      lookupQ (monthly_summary xs) k = some (sumByKey (fun e => e.date.take 7) xs k)) ∧
    (∀ k : Str, k ∉ xs.map (fun e => e.date.take 7) → lookupQ (monthly_summary xs) k = none) ∧
    sumValues (monthly_summary xs) = total_expense xs := by
  refine ⟨?_, ?_, ?_, ?_⟩
  · intro k
    rw [monthly_summary, groupSum_keys]
  · intro k hk
    exact groupSum_lookup_mem (fun e => e.date.take 7) xs hk
  · intro k hk
    exact groupSum_lookup_not_mem (fun e => e.date.take 7) xs hk
  · exact groupSum_sumValues (fun e => e.date.take 7) xs

theorem claim_C10_monthly_summary_witness :
    lookupQ
        (monthly_summary
          [{ amount := 1, category := "Food".data, date := "2024-01-05".data, description := [] },
           { amount := 2, category := "Bills".data, date := "2024-01-20".data, description := [] }])
        "2024-01".data =
      some (sumByKey (fun e => e.date.take 7)
        [{ amount := 1, category := "Food".data, date := "2024-01-05".data, description := [] },
         { amount := 2, category := "Bills".data, date := "2024-01-20".data, description := [] }]
        "2024-01".data) ∧
    lookupQ
        (monthly_summary
          [{ amount := 1, category := "Food".data, date := "2024-01-05".data, description := [] },
           { amount := 2, category := "Bills".data, date := "2024-01-20".data, description := [] }])
        "2023-12".data = none :=
  ⟨(claim_C10_monthly_summary _).2.1 _ (by simp),
   (claim_C10_monthly_summary _).2.2.1 _ (by simp)⟩

/-! ## Category resolution and search -/

/-- Claim C8: in both the add flow and the edit flow, an input equal to
one of the fixed labels is kept, and any other non-blank input resolves
to "Other". -/
theorem claim_C8_category_resolution (s : Str) :
    (s ∈ CATEGORIES → resolve_category_add s = s ∧ resolve_category_edit s = s) ∧
    (s ∉ CATEGORIES → s ≠ [] →
      resolve_category_add s = "Other".data ∧ resolve_category_edit s = "Other".data) := by
  constructor
  · intro hs
    have hne : s ≠ [] := by
      intro h0
      subst h0
      revert hs
      decide
    refine ⟨?_, ?_⟩
    · unfold resolve_category_add
      dsimp only
      have h1 : (if s.isEmpty = true then "Other".data else s) = s := if_neg (by simp [hne])
      rw [h1, if_pos hs]
    · unfold resolve_category_edit
      rw [if_pos hs]
  · intro hs hne
    refine ⟨?_, ?_⟩
    · unfold resolve_category_add
      dsimp only
      have h1 : (if s.isEmpty = true then "Other".data else s) = s := if_neg (by simp [hne])
      rw [h1, if_neg hs]
    · unfold resolve_category_edit
      rw [if_neg hs]

theorem claim_C8_category_resolution_witness :
    (resolve_category_add "Food".data = "Food".data ∧
      resolve_category_edit "Food".data = "Food".data) ∧
    (resolve_category_add "Groceries".data = "Other".data ∧
      resolve_category_edit "Groceries".data = "Other".data) :=
  ⟨(claim_C8_category_resolution _).1 (by decide),
   (claim_C8_category_resolution _).2 (by decide) (by decide)⟩

theorem startsWithStr_iff (n : Str) : ∀ h : Str, startsWithStr n h = true ↔ ∃ t, h = n ++ t := by
  induction n with
  | nil =>
    intro h
    simp [startsWithStr]
  | cons a as ih =>
    intro h
    cases h with
    | nil => simp [startsWithStr]
    | cons b bs =>
      rw [startsWithStr, Bool.and_eq_true, decide_eq_true_eq, ih bs]
      constructor
      · rintro ⟨rfl, t, rfl⟩
        exact ⟨t, rfl⟩
      · rintro ⟨t, ht⟩
        rw [List.cons_append] at ht
        injection ht with h1 h2
        exact ⟨h1.symm, t, h2⟩

theorem occursIn_iff (n : Str) : ∀ h : Str, occursIn n h = true ↔ SubstringOf n h := by
  intro h
  induction h with
  | nil =>
    rw [occursIn]
    unfold SubstringOf
    simp only [List.isEmpty_eq_true]
    constructor
    · rintro rfl
      exact ⟨[], [], rfl⟩
    · rintro ⟨pre, post, hp⟩
      rcases List.append_eq_nil.mp (List.append_eq_nil.mp hp.symm).1 with ⟨-, h2⟩
      exact h2
  | cons c rest ih =>
    rw [occursIn, Bool.or_eq_true, startsWithStr_iff, ih]
    unfold SubstringOf
    constructor
    · rintro (⟨t, ht⟩ | ⟨pre, post, hp⟩)
      · exact ⟨[], t, by simpa using ht⟩
      · exact ⟨c :: pre, post, by rw [hp]; rfl⟩
    · rintro ⟨pre, post, hp⟩
      cases pre with
      | nil =>
        exact Or.inl ⟨post, by simpa using hp⟩
      | cons p ps =>
        rw [List.cons_append, List.cons_append] at hp
        injection hp with h1 h2
        exact Or.inr ⟨ps, post, by rw [h2, List.append_assoc]⟩

theorem matchesQuery_iff (q : Str) (e : Expense) :
    matchesQuery q e = true ↔
      SubstringOf q (toLowerStr e.category) ∨ SubstringOf q (toLowerStr e.description) ∨
        SubstringOf q e.date := by
  unfold matchesQuery
  rw [Bool.or_eq_true, Bool.or_eq_true, occursIn_iff, occursIn_iff, occursIn_iff, or_assoc]

/-- Claim C9: with a non-empty normalized query, a record is selected
exactly when the query occurs (case-insensitively) in its category or
description, or occurs in its date string; an empty query returns no
records (and raises no error: the flow is a total function). -/
theorem claim_C9_search (input : Str) (xs : List Expense) :
    (toLowerStr (pyStrip input) = [] → search_expenses_flow input xs = []) ∧
    (toLowerStr (pyStrip input) ≠ [] → ∀ e : Expense,
      e ∈ search_expenses_flow input xs ↔
        e ∈ xs ∧ (SubstringOf (toLowerStr (pyStrip input)) (toLowerStr e.category) ∨
          SubstringOf (toLowerStr (pyStrip input)) (toLowerStr e.description) ∨
          SubstringOf (toLowerStr (pyStrip input)) e.date)) := by
  constructor
  · intro hq
    unfold search_expenses_flow
    dsimp only
    rw [if_pos (by simp [hq])]
  · intro hq e
    unfold search_expenses_flow
    dsimp only
    rw [if_neg (by simp [hq])]
    rw [List.mem_filter, matchesQuery_iff]

theorem claim_C9_search_witness :
    toLowerStr (pyStrip "Fo".data) ≠ [] ∧
    (({ amount := 1, category := "Food".data, date := "2024-01-01".data,
        description := [] } : Expense) ∈
        search_expenses_flow "Fo".data
          [{ amount := 1, category := "Food".data, date := "2024-01-01".data,
             description := [] }] ↔
      ({ amount := 1, category := "Food".data, date := "2024-01-01".data,
         description := [] } : Expense) ∈
          [({ amount := 1, category := "Food".data, date := "2024-01-01".data,
              description := [] } : Expense)] ∧
        (SubstringOf (toLowerStr (pyStrip "Fo".data)) (toLowerStr "Food".data) ∨
          SubstringOf (toLowerStr (pyStrip "Fo".data)) (toLowerStr []) ∨
          SubstringOf (toLowerStr (pyStrip "Fo".data)) "2024-01-01".data)) :=
  ⟨by decide,
   (claim_C9_search "Fo".data
      [{ amount := 1, category := "Food".data, date := "2024-01-01".data,
         description := [] }]).2 (by decide) _⟩

/-! ## Splitting on the date separator -/

theorem splitSep_ne_nil (sep : Char) : ∀ l : Str, splitSep sep l ≠ [] := by
  intro l
  cases l with
  | nil => simp [splitSep]
  | cons c rest =>
    rw [splitSep]
    split_ifs
    · simp
    · cases h : splitSep sep rest <;> simp

theorem splitSep_part_no_sep (sep : Char) :
    ∀ l p, p ∈ splitSep sep l → sep ∉ p := by
  intro l
  induction l with
  | nil =>
    intro p hp
    rw [splitSep, List.mem_singleton] at hp
    subst hp
    exact List.not_mem_nil sep
  | cons c rest ih =>
    intro p hp
    rw [splitSep] at hp
    by_cases hc : c = sep
    · rw [if_pos hc, List.mem_cons] at hp
      rcases hp with rfl | hp
      · exact List.not_mem_nil sep
      · exact ih p hp
    · rw [if_neg hc] at hp
      cases hsp : splitSep sep rest with
      | nil => exact absurd hsp (splitSep_ne_nil sep rest)
      | cons p0 ps =>
        rw [hsp, List.mem_cons] at hp
        rcases hp with rfl | hp
        · intro hmem
          rcases List.mem_cons.mp hmem with h1 | h1
          · exact hc h1.symm
          · exact ih p0 (by rw [hsp]; exact List.mem_cons_self _ _) h1
        · exact ih p (by rw [hsp]; exact List.mem_cons_of_mem _ hp)

theorem joinSep_splitSep (sep : Char) : ∀ l : Str, joinSep sep (splitSep sep l) = l := by
  intro l
  induction l with
  | nil => rfl
  | cons c rest ih =>
    rw [splitSep]
    by_cases hc : c = sep
    · rw [if_pos hc]
      cases hsp : splitSep sep rest with
      | nil => exact absurd hsp (splitSep_ne_nil sep rest)
      | cons q qs =>
        rw [joinSep, List.nil_append, hc, ← hsp, ih]
        simp
    · rw [if_neg hc]
      cases hsp : splitSep sep rest with
      | nil => exact absurd hsp (splitSep_ne_nil sep rest)
      | cons q qs =>
        cases qs with
        | nil =>
          rw [joinSep]
          rw [hsp] at ih
          rw [joinSep] at ih
          rw [ih]
        | cons q2 qs2 =>
          rw [joinSep, List.cons_append]
          rotate_left
          · simp
          rw [hsp] at ih
          rw [joinSep] at ih
          rotate_left
          · simp
          rw [ih]

theorem splitSep_append_sep {sep : Char} {a : Str} (h : sep ∉ a) (rest : Str) :
    splitSep sep (a ++ sep :: rest) = a :: splitSep sep rest := by
  induction a with
  | nil => simp [splitSep]
  | cons x xs ih =>
    have hx : ¬x = sep := fun hc => h (by rw [hc]; exact List.mem_cons_self _ _)
    rw [List.cons_append, splitSep, if_neg hx,
      ih (fun hc => h (List.mem_cons_of_mem _ hc))]

theorem splitSep_no_sep {sep : Char} {a : Str} (h : sep ∉ a) :
    splitSep sep a = [a] := by
  induction a with
  | nil => rfl
  | cons x xs ih =>
    have hx : ¬x = sep := fun hc => h (by rw [hc]; exact List.mem_cons_self _ _)
    rw [splitSep, if_neg hx, ih (fun hc => h (List.mem_cons_of_mem _ hc))]

/-! ## Digit characters and their values -/

theorem char_eq_of_toNat_eq {a b : Char} (h : a.toNat = b.toNat) : a = b :=
  Char.ext (UInt32.toNat.inj h)

theorem digVal_le_nine {c : Char} (h : isDigitChar c = true) : digVal c ≤ 9 := by
  rw [isDigitChar, Bool.and_eq_true, decide_eq_true_eq, decide_eq_true_eq] at h
  unfold digVal
  omega

theorem char_eq_digitChar {c : Char} (h : isDigitChar c = true) :
    c = Nat.digitChar (digVal c) := by
  have hb : 48 ≤ c.toNat ∧ c.toNat ≤ 57 := by
    rw [isDigitChar, Bool.and_eq_true, decide_eq_true_eq, decide_eq_true_eq] at h
    exact h
  have h9 : digVal c ≤ 9 := digVal_le_nine h
  apply char_eq_of_toNat_eq
  rw [(by decide : ∀ d ≤ 9, (Nat.digitChar d).toNat = 48 + d) (digVal c) h9]
  unfold digVal at *
  omega

theorem valDigits_singleton (c : Char) : valDigits [c] = digVal c := by
  simp [valDigits]

theorem valDigits_pair (c1 c2 : Char) : valDigits [c1, c2] = 10 * digVal c1 + digVal c2 := by
  simp [valDigits]

/-! ## The strptime fields, characterized by value -/

theorem yearMatch_iff (l : Str) (y : Nat) :
    yearMatch l = some y ↔ l.length = 4 ∧ l.all isDigitChar = true ∧ valDigits l = y := by
  rcases l with - | ⟨c1, - | ⟨c2, - | ⟨c3, - | ⟨c4, - | ⟨c5, t⟩⟩⟩⟩⟩
  · simp [yearMatch]
  · simp [yearMatch]
  · simp [yearMatch]
  · simp [yearMatch]
  · rw [yearMatch]
    split_ifs with h
    · simp [h]
    · simp [h]
  · simp [yearMatch]

theorem monthMatch_iff (l : Str) (m : Nat) :
    monthMatch l = some m ↔
      l.all isDigitChar = true ∧ (l.length = 1 ∨ l.length = 2) ∧ valDigits l = m ∧
        1 ≤ m ∧ m ≤ 12 := by
  rcases l with - | ⟨c1, - | ⟨c2, - | ⟨c3, t⟩⟩⟩
  · simp [monthMatch]
  · rw [monthMatch]
    split_ifs with h
    · constructor
      · intro hm
        rw [Option.some.injEq] at hm
        subst hm
        have h9 := digVal_le_nine h.1
        exact ⟨by simp [h.1], Or.inl rfl, valDigits_singleton c1, h.2, by omega⟩
      · rintro ⟨-, -, hval, -, -⟩
        rw [← hval, valDigits_singleton]
    · simp only [false_iff]
      rintro ⟨hall, -, hval, h1m, -⟩
      rw [valDigits_singleton] at hval
      refine h ⟨?_, ?_⟩
      · simpa using hall
      · omega
  · rw [monthMatch]
    split_ifs with hA hB
    · obtain ⟨hc1, hd2, hle⟩ := hA
      subst hc1
      constructor
      · intro hm
        rw [Option.some.injEq] at hm
        subst hm
        refine ⟨by simp [hd2, show isDigitChar '1' = true from by decide], Or.inr rfl, ?_,
          by omega, by omega⟩
        rw [valDigits_pair, show digVal '1' = 1 from rfl]
      · rintro ⟨-, -, hval, -, -⟩
        rw [Option.some.injEq, ← hval, valDigits_pair, show digVal '1' = 1 from rfl]
    · obtain ⟨hc1, hd2, h1⟩ := hB
      subst hc1
      constructor
      · intro hm
        rw [Option.some.injEq] at hm
        subst hm
        have h9 := digVal_le_nine hd2
        refine ⟨by simp [hd2, show isDigitChar '0' = true from by decide], Or.inr rfl, ?_,
          by omega, by omega⟩
        rw [valDigits_pair, show digVal '0' = 0 from rfl]
        omega
      · rintro ⟨-, -, hval, -, -⟩
        rw [Option.some.injEq, ← hval, valDigits_pair, show digVal '0' = 0 from rfl]
        omega
    · simp only [false_iff]
      rintro ⟨hall, -, hval, h1m, h12⟩
      simp only [List.all_cons, List.all_nil, Bool.and_eq_true, Bool.and_true] at hall
      obtain ⟨hd1, hd2⟩ := hall
      rw [valDigits_pair] at hval
      have h91 := digVal_le_nine hd1
      have h92 := digVal_le_nine hd2
      have hd1v : digVal c1 = 0 ∨ digVal c1 = 1 := by omega
      rcases hd1v with h0 | h0
      · refine hB ⟨?_, hd2, by omega⟩
        have := char_eq_digitChar hd1
        rw [h0] at this
        exact this
      · refine hA ⟨?_, hd2, by omega⟩
        have := char_eq_digitChar hd1
        rw [h0] at this
        exact this
  · rw [show monthMatch (c1 :: c2 :: c3 :: t) = none from rfl]
    constructor
    · intro hm
      exact Option.noConfusion hm
    · rintro ⟨-, hlen, -, -, -⟩
      simp only [List.length_cons] at hlen
      omega

theorem dayMatch_iff (l : Str) (d : Nat) :
    dayMatch l = some d ↔
      l.all isDigitChar = true ∧ (l.length = 1 ∨ l.length = 2) ∧ valDigits l = d ∧
        1 ≤ d ∧ d ≤ 31 := by
  rcases l with - | ⟨c1, - | ⟨c2, - | ⟨c3, t⟩⟩⟩
  · simp [dayMatch]
  · rw [dayMatch]
    split_ifs with h
    · constructor
      · intro hm
        rw [Option.some.injEq] at hm
        subst hm
        have h9 := digVal_le_nine h.1
        exact ⟨by simp [h.1], Or.inl rfl, valDigits_singleton c1, h.2, by omega⟩
      · rintro ⟨-, -, hval, -, -⟩
        rw [← hval, valDigits_singleton]
    · simp only [false_iff]
      rintro ⟨hall, -, hval, h1m, -⟩
      rw [valDigits_singleton] at hval
      refine h ⟨?_, ?_⟩
      · simpa using hall
      · omega
  · rw [dayMatch]
    split_ifs with hA hB hC
    · obtain ⟨hc1, hc2⟩ := hA
      subst hc1
      have hd2 : isDigitChar c2 = true := by rcases hc2 with rfl | rfl <;> decide
      have h2le : digVal c2 ≤ 1 := by rcases hc2 with rfl | rfl <;> decide
      constructor
      · intro hm
        rw [Option.some.injEq] at hm
        subst hm
        refine ⟨by simp [hd2, show isDigitChar '3' = true from by decide], Or.inr rfl, ?_,
          by omega, by omega⟩
        rw [valDigits_pair, show digVal '3' = 3 from rfl]
      · rintro ⟨-, -, hval, -, -⟩
        rw [Option.some.injEq, ← hval, valDigits_pair, show digVal '3' = 3 from rfl]
    · obtain ⟨hc1, hd2⟩ := hB
      have hd1 : isDigitChar c1 = true := by rcases hc1 with rfl | rfl <;> decide
      have h1b : 1 ≤ digVal c1 ∧ digVal c1 ≤ 2 := by rcases hc1 with rfl | rfl <;> decide
      have h92 := digVal_le_nine hd2
      constructor
      · intro hm
        rw [Option.some.injEq] at hm
        subst hm
        exact ⟨by simp [hd1, hd2], Or.inr rfl, (valDigits_pair c1 c2).symm ▸ rfl,
          by omega, by omega⟩
      · rintro ⟨-, -, hval, -, -⟩
        rw [Option.some.injEq, ← hval, valDigits_pair]
    · obtain ⟨hc1, hd2, h1d⟩ := hC
      subst hc1
      have h92 := digVal_le_nine hd2
      constructor
      · intro hm
        rw [Option.some.injEq] at hm
        subst hm
        refine ⟨by simp [hd2, show isDigitChar '0' = true from by decide], Or.inr rfl, ?_,
          by omega, by omega⟩
        rw [valDigits_pair, show digVal '0' = 0 from rfl]
        omega
      · rintro ⟨-, -, hval, -, -⟩
        rw [Option.some.injEq, ← hval, valDigits_pair, show digVal '0' = 0 from rfl]
        omega
    · simp only [false_iff]
      rintro ⟨hall, -, hval, h1d, h31⟩
      simp only [List.all_cons, List.all_nil, Bool.and_eq_true, Bool.and_true] at hall
      obtain ⟨hd1, hd2⟩ := hall
      rw [valDigits_pair] at hval
      have h91 := digVal_le_nine hd1
      have h92 := digVal_le_nine hd2
      have hd1v : digVal c1 = 0 ∨ digVal c1 = 1 ∨ digVal c1 = 2 ∨ digVal c1 = 3 := by omega
      rcases hd1v with h0 | h0 | h0 | h0
      · refine hC ⟨?_, hd2, by omega⟩
        have := char_eq_digitChar hd1
        rw [h0] at this
        exact this
      · refine hB ⟨Or.inl ?_, hd2⟩
        have := char_eq_digitChar hd1
        rw [h0] at this
        exact this
      · refine hB ⟨Or.inr ?_, hd2⟩
        have := char_eq_digitChar hd1
        rw [h0] at this
        exact this
      · have hc1 : c1 = '3' := by
          have := char_eq_digitChar hd1
          rw [h0] at this
          exact this
        have hd2v : digVal c2 = 0 ∨ digVal c2 = 1 := by omega
        refine hA ⟨hc1, ?_⟩
        rcases hd2v with h2 | h2
        · left
          have := char_eq_digitChar hd2
          rw [h2] at this
          exact this
        · right
          have := char_eq_digitChar hd2
          rw [h2] at this
          exact this
  · rw [show dayMatch (c1 :: c2 :: c3 :: t) = none from rfl]
    constructor
    · intro hm
      exact Option.noConfusion hm
    · rintro ⟨-, hlen, -, -, -⟩
      simp only [List.length_cons] at hlen
      omega

theorem daysInMonth_le_31 (y m : Nat) : daysInMonth y m ≤ 31 := by
  unfold daysInMonth
  split_ifs <;> norm_num

theorem valid_date_iff (s : Str) : valid_date s = true ↔ AmendedDateSpec s := by
  constructor
  · intro h
    unfold valid_date at h
    rcases hsp : splitSep '-' s with - | ⟨ys, - | ⟨ms, - | ⟨ds, - | ⟨x4, t⟩⟩⟩⟩ <;>
      rw [hsp] at h
    · simp at h
    · simp at h
    · simp at h
    · dsimp only at h
      cases hy : yearMatch ys <;> rw [hy] at h
      · simp at h
      case some y =>
        cases hm : monthMatch ms <;> rw [hm] at h
        · simp at h
        case some m =>
          cases hd : dayMatch ds <;> rw [hd] at h
          · simp at h
          case some d =>
            rw [Bool.and_eq_true, decide_eq_true_eq, decide_eq_true_eq] at h
            obtain ⟨h1y, hdm⟩ := h
            obtain ⟨hylen, hyall, hyval⟩ := (yearMatch_iff ys y).mp hy
            obtain ⟨hmall, hmlen, hmval, hm1, hm12⟩ := (monthMatch_iff ms m).mp hm
            obtain ⟨hdall, hdlen, hdval, hd1, -⟩ := (dayMatch_iff ds d).mp hd
            have hs : s = ys ++ '-' :: (ms ++ '-' :: ds) := by
              rw [← joinSep_splitSep '-' s, hsp]
              rfl
            refine ⟨ys, ms, ds, hs, hylen, hyall, by omega, by omega, by omega, hmall,
              by omega, by omega, by omega, by omega, hdall, by omega, ?_⟩
            rw [hdval, hyval, hmval]
            exact hdm
    · simp at h
  · rintro ⟨ys, ms, ds, rfl, hylen, hyall, hy1, hml, hmr, hmall, hm1, hm12, hdl, hdr,
      hdall, hd1, hdle⟩
    have hysep : '-' ∉ ys := by
      intro hc
      rw [List.all_eq_true] at hyall
      exact (digit_char_shape (hyall _ hc)).2.1 rfl
    have hmsep : '-' ∉ ms := by
      intro hc
      rw [List.all_eq_true] at hmall
      exact (digit_char_shape (hmall _ hc)).2.1 rfl
    have hdsep : '-' ∉ ds := by
      intro hc
      rw [List.all_eq_true] at hdall
      exact (digit_char_shape (hdall _ hc)).2.1 rfl
    unfold valid_date
    rw [splitSep_append_sep hysep, splitSep_append_sep hmsep, splitSep_no_sep hdsep]
    dsimp only
    rw [(yearMatch_iff ys (valDigits ys)).mpr ⟨hylen, hyall, rfl⟩,
      (monthMatch_iff ms (valDigits ms)).mpr ⟨hmall, by omega, rfl, hm1, hm12⟩,
      (dayMatch_iff ds (valDigits ds)).mpr
        ⟨hdall, by omega, rfl, hd1,
          by have := daysInMonth_le_31 (valDigits ys) (valDigits ms); omega⟩]
    simp [hy1, hdle]

/-- Claim C2 as frozen is refuted at the input "2024-1-1": the code's
`valid_date` accepts it (CPython's strptime month and day fields also
match one-digit numbers) while the claimed exact `YYYY-MM-DD` shape with
two-digit month and day rejects it. -/
theorem claim_C2_counterexample :
    valid_date "2024-1-1".data = true ∧ specDateC2 "2024-1-1".data = false :=
  ⟨by decide, by decide⟩

/-- Claim C2 (amended): `valid_date s` is true iff `s` is `Y-M-D` with
`Y` exactly four digits of value at least 1, `M` one or two digits with
value 1–12, and `D` one or two digits whose value is a valid day of that
month and year; the three example dates behave as claimed. -/
theorem claim_C2_valid_date_amended :
    (∀ s : Str, valid_date s = true ↔ AmendedDateSpec s) ∧
    valid_date "2024-02-30".data = false ∧
    valid_date "2024-02-29".data = true ∧
    valid_date "2023-02-29".data = false :=
  ⟨valid_date_iff, by decide, by decide, by decide⟩
